import Mathlib

/-!
Verification of the moolang front end (tokenizer, parser, diagnostics).

The definitions below are a shallow embedding of the Rust sources:
  * `src/frontend/tokenizer.rs` — lexical segmentation and tokenization,
  * `src/frontend/ast.rs`       — the recursive-descent parser,
  * `src/errors.rs`             — the located-error model and its rendering,
  * `src/compile.rs`            — the pipeline glue.

Lines of input are `List Char` (the file reader hands the tokenizer
newline-stripped lines).  A Rust `panic!`/failed `assert!` is modelled by
`Option.none` at the outermost level; fallible operations return `Except`.
Rust's recursion (the parser's mutually recursive procedures, and the
recursive `Display` implementation of `LocalizedSourcedError`) is modelled
with an explicit fuel parameter that mirrors the call stack: running out of
fuel corresponds to exhausting the stack, and theorems are stated for every
fuel so no behaviour hides behind a particular bound.
-/

namespace Moolang

/-- `Location` from `tokenizer.rs`: `line` is 1-based (incremented before each
line is scanned), `column` is the 0-based index of the snippet in its line.
`⟨0, 0⟩` is the `Default` ("unknown/synthetic") location. -/
structure Location where
  line : Nat
  column : Nat
deriving DecidableEq, Repr

/-- The closed operator/keyword set of `tokenizer.rs` (`enum Operator`). -/
inductive Operator where
  | add | sub | mul | div | mod | pow
  | let_ | fn
  | comma | colon | semicolon | assign
  | lparen | rparen | lcurl | rcurl
deriving DecidableEq, Repr

/-- `enum Type` of `tokenizer.rs`: a token is an operator or an opaque literal. -/
inductive TokType where
  | operator (op : Operator)
  | literal (s : String)
deriving DecidableEq, Repr

/-- `struct Token` of `tokenizer.rs`. -/
structure Token where
  type_ : TokType
  location : Location
deriving DecidableEq, Repr

/-- `struct TokenError` of `tokenizer.rs`. -/
structure TokenError where
  message : String
deriving DecidableEq, Repr

/-- `struct ParseError` of `ast.rs`. -/
structure ParseError where
  message : String
deriving DecidableEq, Repr

/-- The leaf failure kinds that get boxed into `LocalizedError` in this
pipeline (`Box<dyn Error>` holding a `TokenError` or a `ParseError`). -/
inductive ErrCause where
  | token (message : String)
  | parse (message : String)
deriving DecidableEq, Repr

/-- `struct LocalizedError(Box<dyn Error>, Location)` of `errors.rs`. -/
structure LocalizedError where
  cause : ErrCause
  location : Location
deriving DecidableEq, Repr

/-- `struct LocalizedSourcedError(Box<dyn Error>, Location, PathBuf)` of `errors.rs`. -/
structure LocalizedSourcedError where
  cause : ErrCause
  location : Location
  source_path : String
deriving DecidableEq, Repr

/-- Rust `Debug` rendering of `Operator` (derived `Debug`). -/
def Operator.dbg : Operator → String
  | .add => "Add" | .sub => "Sub" | .mul => "Mul" | .div => "Div"
  | .mod => "Mod" | .pow => "Pow" | .let_ => "Let" | .fn => "Fn"
  | .comma => "Comma" | .colon => "Colon" | .semicolon => "Semicolon"
  | .assign => "Assign" | .lparen => "LParen" | .rparen => "RParen"
  | .lcurl => "LCurl" | .rcurl => "RCurl"

/-- Rust `Debug` rendering of `Type` (derived `Debug`; string escaping is the
identity on the alphanumeric literals this pipeline produces). -/
def TokType.dbg : TokType → String
  | .operator o => "Operator(" ++ o.dbg ++ ")"
  | .literal s => "Literal(\"" ++ s ++ "\")"

/-! ## Lexical segmenter (`slice_into_snippets`, tokenizer.rs:145-186) -/

/-- Rust `char::is_ascii`: code point at most `0x7f`. -/
def char_is_ascii (c : Char) : Bool :=
  decide (c.toNat ≤ 0x7f)

/-- Rust `char::is_whitespace`, restricted to the ASCII range the segmenter
admits (the Unicode `White_Space` characters below `0x80`). -/
def rust_is_whitespace (c : Char) : Bool :=
  c == ' ' || c == '\t' || c == '\n' || c == '\r' || c == '\x0b' || c == '\x0c'

/-- Rust `char::is_ascii_punctuation`. -/
def rust_is_ascii_punct (c : Char) : Bool :=
  (decide (0x21 ≤ c.toNat) && decide (c.toNat ≤ 0x2f)) ||
  (decide (0x3a ≤ c.toNat) && decide (c.toNat ≤ 0x40)) ||
  (decide (0x5b ≤ c.toNat) && decide (c.toNat ≤ 0x60)) ||
  (decide (0x7b ≤ c.toNat) && decide (c.toNat ≤ 0x7e))

/-- The character classification closure inside `slice_into_snippets`
(tokenizer.rs:146-168).  Only ever consulted on ASCII characters, where
`Char.isAlphanum` agrees with Rust's Unicode `is_alphanumeric`. -/
def category (c : Char) : Nat :=
  if rust_is_whitespace c then 0
  else if c.isAlphanum then 1
  else if rust_is_ascii_punct c then
    if c == '(' then 2 else if c == ')' then 3
    else if c == '\x7b' then 4 else if c == '\x7d' then 5
    else if c == ';' then 6 else if c == ':' then 7
    else if c == '=' then 8 else if c == '+' then 9
    else if c == '-' then 10 else if c == '*' then 11
    else if c == '/' then 12 else if c == '%' then 13
    else if c == ',' then 14 else 99
  else 99

/-- A completed group is the comment snippet that stops the scan exactly when
it is a `/`-run of length ≥ 2 (`take_while(|s| !s.contains("//"))`:
`/` has its own category, so only a `/`-run can contain `"//"`). -/
def is_comment_run (cat : Nat) (run : List Char) : Bool :=
  cat == 12 && decide (2 ≤ run.length)

/-- Worker for `slice_into_snippets`: `run` is the current maximal
same-category group (category `cat`), the list argument the characters not
yet consumed.  Mirrors the lazy Rust pipeline
`char_indices → inspect(assert ascii) → group_by(category) → filter(≠ ws)
→ map(to-slice) → take_while(no "//")`:  each consumed character is
ASCII-asserted (`none` = panic) — including the single look-ahead character
that terminates the comment group — whitespace groups are dropped, and the
scan stops at the first `/`-run containing `"//"`, which is not emitted. -/
def slice_into_snippets_aux (cat : Nat) (run : List Char) : List Char → Option (List String)
  | [] =>
    if is_comment_run cat run then some []
    else if cat == 0 then some []
    else some [String.mk run]
  | c :: rest =>
    if !char_is_ascii c then none
    else if category c == cat then slice_into_snippets_aux cat (run ++ [c]) rest
    else if is_comment_run cat run then some []
    else if cat == 0 then slice_into_snippets_aux (category c) [c] rest
    else (slice_into_snippets_aux (category c) [c] rest).map (fun sn => String.mk run :: sn)

/-- `slice_into_snippets` (tokenizer.rs:145-186): split one line into maximal
same-category snippets, dropping whitespace and truncating at the first
comment snippet.  `none` models the `assert!(c.is_ascii())` panic. -/
def slice_into_snippets : List Char → Option (List String)
  | [] => some []
  | c :: rest => if !char_is_ascii c then none else slice_into_snippets_aux (category c) [c] rest

/-! ## Token classification (`impl FromStr for Type`, tokenizer.rs:58-86) -/

/-- `Type::from_str`: operator/keyword match first, then "all alphanumeric →
literal", otherwise a `TokenError`. -/
def TokType.from_str (s : String) : Except TokenError TokType :=
  if s = "+" then .ok (.operator .add)
  else if s = "-" then .ok (.operator .sub)
  else if s = "*" then .ok (.operator .mul)
  else if s = "/" then .ok (.operator .div)
  else if s = "%" then .ok (.operator .mod)
  else if s = "**" then .ok (.operator .pow)
  else if s = "," then .ok (.operator .comma)
  else if s = ":" then .ok (.operator .colon)
  else if s = ";" then .ok (.operator .semicolon)
  else if s = "=" then .ok (.operator .assign)
  else if s = "(" then .ok (.operator .lparen)
  else if s = ")" then .ok (.operator .rparen)
  else if s = "\x7b" then .ok (.operator .lcurl)
  else if s = "\x7d" then .ok (.operator .rcurl)
  else if s = "let" then .ok (.operator .let_)
  else if s = "fn" then .ok (.operator .fn)
  else if s.data.all Char.isAlphanum then .ok (.literal s)
  else .error ⟨"Invalid token: " ++ s⟩

/-- The classification loop inside `Tokenizer::next` (tokenizer.rs:205-215):
`for (i, snippet) in snippets.enumerate()`, giving each token the running
column index and stopping at the first failing snippet with a
`LocalizedError` at `{line, column: i}`. -/
def classify_snippets (line : Nat) : Nat → List String → List Token × Option LocalizedError
  | _, [] => ([], none)
  | i, s :: rest =>
    match TokType.from_str s with
    | .ok t =>
      let (ts, e) := classify_snippets line (i + 1) rest
      (⟨t, ⟨line, i⟩⟩ :: ts, e)
    | .error err => ([], some ⟨.token err.message, ⟨line, i⟩⟩)

/-! ## The tokenizer state machine (`Tokenizer`, tokenizer.rs:104-223) -/

/-- The `Tokenizer` struct: remaining input lines, buffered tokens of the
current line (in emission order; Rust stores them reversed and pops),
the running location, and the single first-error slot. -/
structure TokSt where
  lines : List (List Char)
  toks : List Token
  line : Nat
  col : Nat
  err : Option LocalizedError
deriving DecidableEq, Repr

/-- `Tokenizer::new` (tokenizer.rs:114-121). -/
def TokSt.init (lines : List (List Char)) : TokSt := ⟨lines, [], 0, 0, none⟩

/-- The line-fetching branch of `Tokenizer::next` (tokenizer.rs:198-220):
take the next line, bump the line counter, segment and classify it; on a
lexical error record it and (via the recursive `self.next()`) yield
end-of-sequence with the partial tokens discarded; on a clean non-empty line
yield its first token; on a clean empty line move on to the next line.
`none` propagates the segmenter's assertion panic. -/
def fetch_from (lineNo col : Nat) : List (List Char) → Option (Option Token × TokSt)
  | [] => some (none, ⟨[], [], lineNo, col, none⟩)
  | l :: rest =>
    match slice_into_snippets l with
    | none => none
    | some snips =>
      match classify_snippets (lineNo + 1) 0 snips with
      | (_, some e) => some (none, ⟨rest, [], lineNo + 1, 0, some e⟩)
      | ([], none) => fetch_from (lineNo + 1) 0 rest
      | (t :: ts, none) => some (some t, ⟨rest, ts, lineNo + 1, 1, none⟩)

/-- `Tokenizer::next` (tokenizer.rs:193-222): a recorded error makes every
pull yield end-of-sequence with the state untouched; otherwise buffered
tokens are emitted in order; otherwise the next line is fetched. -/
def tok_next (st : TokSt) : Option (Option Token × TokSt) :=
  match st.err with
  | some _ => some (none, st)
  | none =>
    match st.toks with
    | t :: ts => some (some t, ⟨st.lines, ts, st.line, st.col + 1, none⟩)
    | [] => fetch_from st.line st.col st.lines

/-- `k` successive pulls on the tokenizer (the parser's demand loop),
returning the final state; `none` models a panic during some pull. -/
def pulls : Nat → TokSt → Option TokSt
  | 0, st => some st
  | k + 1, st => (tok_next st).bind fun p => pulls k p.2

/-- The whole-input view of the tokenizer obtained by pulling it to
exhaustion: the emitted token sequence and the final error slot, line by
line exactly as `Tokenizer::next` processes them (an errored line
contributes no tokens — Rust discards the partial buffer — and no later
line is scanned).  `none` models the segmenter panic. -/
def tokenizer_run (lineNo : Nat) : List (List Char) → Option (List Token × Option LocalizedError)
  | [] => some ([], none)
  | l :: rest =>
    match slice_into_snippets l with
    | none => none
    | some snips =>
      match classify_snippets (lineNo + 1) 0 snips with
      | (_, some e) => some ([], some e)
      | (toks, none) =>
        match tokenizer_run (lineNo + 1) rest with
        | none => none
        | some (ts, e) => some (toks ++ ts, e)

/-- Whether a snippet fails `Type::from_str` (is neither a recognized
operator/keyword nor all-alphanumeric). -/
def bad_snippet (s : String) : Bool :=
  match TokType.from_str s with
  | .error _ => true
  | .ok _ => false

/-- Index of the first unclassifiable snippet in a line's snippet list. -/
def find_bad_idx : List String → Option Nat
  | [] => none
  | s :: rest => if bad_snippet s then some 0 else (find_bad_idx rest).map (· + 1)

/-- The (1-based line, 0-based snippet index) position of the first
unclassifiable snippet of the input, walking lines in order; `none` if a
line panics the segmenter before one is found, or there is none. -/
def first_bad_loc (lineNo : Nat) : List (List Char) → Option Location
  | [] => none
  | l :: rest =>
    match slice_into_snippets l with
    | none => none
    | some snips =>
      match find_bad_idx snips with
      | some i => some ⟨lineNo + 1, i⟩
      | none => first_bad_loc (lineNo + 1) rest

/-! ## The parser (`ast.rs`)

The AST: `struct AST { type_: Type, location: Location }` with `enum Type`
flattened into one inductive, each constructor carrying the `Location` the
Rust code attaches with `Type::wrap`. -/

inductive AST where
  | literal (s : String) (loc : Location)
  | typedLiteral (name ty : String) (loc : Location)
  | expression (op : Operator) (lhs rhs : AST) (loc : Location)
  | lambda (ret : String) (params : List AST) (body : AST) (loc : Location)
  | block (stmts : List AST) (loc : Location)
  | module (stmts : List AST) (loc : Location)

/-- `expected_found` (ast.rs:308-319): the uniform "Expected X, found Y"
message, Debug-formatting the found token type. -/
def expected_found (what : String) (found : Option TokType) : ParseError :=
  match found with
  | some t => ⟨"Expected " ++ what ++ ", found " ++ t.dbg⟩
  | none => ⟨"Expected " ++ what ++ ", found end of input"⟩

/-- `locate` (ast.rs:321-323): the peeked token's location, or the synthetic
default at end of input. -/
def locate (ts : List Token) : Location :=
  match ts with
  | [] => ⟨0, 0⟩
  | t :: _ => t.location

/-- The error produced when the fuel modelling Rust's call stack runs out
(Rust would overflow the stack; no theorem below depends on this value). -/
def fuel_err : ParseError := ⟨"recursion limit reached"⟩

/- Each Rust parse function `fn parse_x(tokens: &mut Peekable<_>) ->
Result<AST, ParseError>` becomes `Nat → List Token → Except ParseError
(AST × List Token)`: the token cursor is passed and returned explicitly,
and the `Nat` fuel mirrors the recursion depth.  `while` loops over the
cursor become the `_loop` companions. -/
mutual

/-- `parse_module` (ast.rs:71-80): statements until end of input. -/
def parse_module : Nat → List Token → Except ParseError (AST × List Token)
  | 0, _ => .error fuel_err
  | fuel + 1, ts =>
    match parse_module_loop fuel ts with
    | .error e => .error e
    | .ok (asts, rest) => .ok (.module asts (locate ts), rest)

/-- The `while let Some(token) = tokens.peek()` loop of `parse_module`. -/
def parse_module_loop : Nat → List Token → Except ParseError (List AST × List Token)
  | 0, _ => .error fuel_err
  | _ + 1, [] => .ok ([], [])
  | fuel + 1, ts@(_ :: _) =>
    match parse_statement fuel ts with
    | .error e => .error e
    | .ok (a, rest) =>
      match parse_module_loop fuel rest with
      | .error e => .error e
      | .ok (asts, rest') => .ok (a :: asts, rest')

/-- `parse_statement` (ast.rs:226-235): assignment (on a `let` peek) or
expression, then a mandatory semicolon. -/
def parse_statement : Nat → List Token → Except ParseError (AST × List Token)
  | 0, _ => .error fuel_err
  | fuel + 1, ts =>
    match
      (match ts with
       | ⟨.operator .let_, _⟩ :: _ => parse_assignment fuel ts
       | _ => parse_expression fuel ts) with
    | .error e => .error e
    | .ok (a, rest) =>
      match rest with
      | ⟨.operator .semicolon, _⟩ :: rest' => .ok (a, rest')
      | t :: _ => .error (expected_found "semicolon" (some t.type_))
      | [] => .error (expected_found "semicolon" none)

/-- `parse_expression` (ast.rs:84-93): block, lambda or arithmetic by peek. -/
def parse_expression : Nat → List Token → Except ParseError (AST × List Token)
  | 0, _ => .error fuel_err
  | fuel + 1, ts =>
    match ts with
    | ⟨.operator .lcurl, _⟩ :: _ => parse_block fuel ts
    | ⟨.operator .fn, _⟩ :: _ => parse_function fuel ts
    | _ :: _ => parse_airthmetic_expression fuel ts
    | [] => .error ⟨"Expected expression, found end of input"⟩

/-- `parse_airthmetic_expression` (ast.rs:98-115; the source's spelling). -/
def parse_airthmetic_expression : Nat → List Token → Except ParseError (AST × List Token)
  | 0, _ => .error fuel_err
  | fuel + 1, ts =>
    match parse_term fuel ts with
    | .error e => .error e
    | .ok (a, rest) => parse_arith_loop fuel (locate ts) a rest

/-- The `+`/`-` folding loop of `parse_airthmetic_expression`; every built
expression is wrapped at the production's start location. -/
def parse_arith_loop : Nat → Location → AST → List Token → Except ParseError (AST × List Token)
  | 0, _, _, _ => .error fuel_err
  | fuel + 1, loc, a, ⟨.operator .add, _⟩ :: r =>
    match parse_term fuel r with
    | .error e => .error e
    | .ok (b, r') => parse_arith_loop fuel loc (.expression .add a b loc) r'
  | fuel + 1, loc, a, ⟨.operator .sub, _⟩ :: r =>
    match parse_term fuel r with
    | .error e => .error e
    | .ok (b, r') => parse_arith_loop fuel loc (.expression .sub a b loc) r'
  | _ + 1, _, a, ts => .ok (a, ts)

/-- `parse_term` (ast.rs:117-138). -/
def parse_term : Nat → List Token → Except ParseError (AST × List Token)
  | 0, _ => .error fuel_err
  | fuel + 1, ts =>
    match parse_factor fuel ts with
    | .error e => .error e
    | .ok (a, rest) => parse_term_loop fuel (locate ts) a rest

/-- The `*`/`/`/`%` folding loop of `parse_term`. -/
def parse_term_loop : Nat → Location → AST → List Token → Except ParseError (AST × List Token)
  | 0, _, _, _ => .error fuel_err
  | fuel + 1, loc, a, ⟨.operator .mul, _⟩ :: r =>
    match parse_factor fuel r with
    | .error e => .error e
    | .ok (b, r') => parse_term_loop fuel loc (.expression .mul a b loc) r'
  | fuel + 1, loc, a, ⟨.operator .div, _⟩ :: r =>
    match parse_factor fuel r with
    | .error e => .error e
    | .ok (b, r') => parse_term_loop fuel loc (.expression .div a b loc) r'
  | fuel + 1, loc, a, ⟨.operator .mod, _⟩ :: r =>
    match parse_factor fuel r with
    | .error e => .error e
    | .ok (b, r') => parse_term_loop fuel loc (.expression .mod a b loc) r'
  | _ + 1, _, a, ts => .ok (a, ts)

/-- `parse_factor` (ast.rs:140-153). -/
def parse_factor : Nat → List Token → Except ParseError (AST × List Token)
  | 0, _ => .error fuel_err
  | fuel + 1, ts =>
    match parse_atom fuel ts with
    | .error e => .error e
    | .ok (a, rest) => parse_factor_loop fuel (locate ts) a rest

/-- The `**` folding loop of `parse_factor`: the running result is always the
left operand, so `**` associates to the left. -/
def parse_factor_loop : Nat → Location → AST → List Token → Except ParseError (AST × List Token)
  | 0, _, _, _ => .error fuel_err
  | fuel + 1, loc, a, ⟨.operator .pow, _⟩ :: r =>
    match parse_atom fuel r with
    | .error e => .error e
    | .ok (b, r') => parse_factor_loop fuel loc (.expression .pow a b loc) r'
  | _ + 1, _, a, ts => .ok (a, ts)

/-- `parse_atom` (ast.rs:157-174): literal, unary `-` (desugared to
`0 - atom`), unary `+` (the identity), or a parenthesized arithmetic
expression. -/
def parse_atom : Nat → List Token → Except ParseError (AST × List Token)
  | 0, _ => .error fuel_err
  | fuel + 1, ts =>
    match ts with
    | ⟨.literal s, _⟩ :: r => .ok (.literal s (locate ts), r)
    | ⟨.operator .sub, _⟩ :: r =>
      match parse_atom fuel r with
      | .error e => .error e
      | .ok (a, r') => .ok (.expression .sub (.literal "0" (locate ts)) a (locate ts), r')
    | ⟨.operator .add, _⟩ :: r => parse_atom fuel r
    | ⟨.operator .lparen, _⟩ :: r =>
      match parse_airthmetic_expression fuel r with
      | .error e => .error e
      | .ok (a, r') =>
        match r' with
        | ⟨.operator .rparen, _⟩ :: r'' => .ok (a, r'')
        | t :: _ => .error (expected_found "closing parenthesis" (some t.type_))
        | [] => .error (expected_found "closing parenthesis" none)
    | t :: _ => .error (expected_found "literal, unary operator or opening parenthesis" (some t.type_))
    | [] => .error (expected_found "literal, unary operator or opening parenthesis" none)

/-- `parse_typed_literal` (ast.rs:181-202): `Literal (':' Literal)?`, the
annotation mandatory iff `strict`. -/
def parse_typed_literal : Nat → Bool → List Token → Except ParseError (AST × List Token)
  | 0, _, _ => .error fuel_err
  | _ + 1, strict, ts =>
    match ts with
    | ⟨.literal s, _⟩ :: r =>
      match r with
      | ⟨.operator .colon, _⟩ :: r' =>
        match r' with
        | ⟨.literal t, _⟩ :: r'' => .ok (.typedLiteral s t (locate ts), r'')
        | tk :: _ => .error (expected_found "literal [type information]" (some tk.type_))
        | [] => .error (expected_found "literal [type information]" none)
      | _ =>
        if strict then
          .error (expected_found "colon [type information]" (r.head?.map (·.type_)))
        else
          .ok (.literal s (locate ts), r)
    | tk :: _ => .error (expected_found "literal [name information]" (some tk.type_))
    | [] => .error (expected_found "literal [name information]" none)

/-- `parse_assignment` (ast.rs:208-222): `'let' TypedLiteral(strict=false)
'=' Expression`, built as the synthetic `Expression(Let, name, value)`. -/
def parse_assignment : Nat → List Token → Except ParseError (AST × List Token)
  | 0, _ => .error fuel_err
  | fuel + 1, ts =>
    match ts with
    | ⟨.operator .let_, _⟩ :: r =>
      match parse_typed_literal fuel false r with
      | .error e => .error e
      | .ok (name, r') =>
        match r' with
        | ⟨.operator .assign, _⟩ :: r'' =>
          match parse_expression fuel r'' with
          | .error e => .error e
          | .ok (v, r3) => .ok (.expression .let_ name v (locate ts), r3)
        | tk :: _ => .error (expected_found "assignment operator" (some tk.type_))
        | [] => .error (expected_found "assignment operator" none)
    | tk :: _ => .error (expected_found "let keyword" (some tk.type_))
    | [] => .error (expected_found "let keyword" none)

/-- `parse_block` (ast.rs:239-256): `'{'` then statements; the loop stops on
a `'}'` (consumed) — or, as in the source, simply when the tokens run out. -/
def parse_block : Nat → List Token → Except ParseError (AST × List Token)
  | 0, _ => .error fuel_err
  | fuel + 1, ts =>
    match ts with
    | ⟨.operator .lcurl, _⟩ :: r =>
      match parse_block_loop fuel r with
      | .error e => .error e
      | .ok (asts, r') => .ok (.block asts (locate ts), r')
    | tk :: _ => .error (expected_found "opening curly brace" (some tk.type_))
    | [] => .error (expected_found "opening curly brace" none)

/-- The statement loop of `parse_block`: note the `[] => ok` arm mirroring
the source's `while let` that accepts end of input as a block terminator. -/
def parse_block_loop : Nat → List Token → Except ParseError (List AST × List Token)
  | 0, _ => .error fuel_err
  | _ + 1, [] => .ok ([], [])
  | _ + 1, ⟨.operator .rcurl, _⟩ :: r => .ok ([], r)
  | fuel + 1, ts@(_ :: _) =>
    match parse_statement fuel ts with
    | .error e => .error e
    | .ok (a, r) =>
      match parse_block_loop fuel r with
      | .error e => .error e
      | .ok (asts, r') => .ok (a :: asts, r')

/-- `parse_function` (ast.rs:262-302): `'fn' '(' params ')' ':' Literal Block`. -/
def parse_function : Nat → List Token → Except ParseError (AST × List Token)
  | 0, _ => .error fuel_err
  | fuel + 1, ts =>
    match ts with
    | ⟨.operator .fn, _⟩ :: r1 =>
      match r1 with
      | ⟨.operator .lparen, _⟩ :: r2 =>
        match parse_function_args fuel r2 with
        | .error e => .error e
        | .ok (args, r3) =>
          match r3 with
          | ⟨.operator .colon, _⟩ :: r4 =>
            match r4 with
            | ⟨.literal t, _⟩ :: r5 =>
              match parse_block fuel r5 with
              | .error e => .error e
              | .ok (b, r6) => .ok (.lambda t args b (locate ts), r6)
            | tk :: _ => .error (expected_found "literal [type information]" (some tk.type_))
            | [] => .error (expected_found "literal [type information]" none)
          | tk :: _ => .error (expected_found "colon [type information] " (some tk.type_))
          | [] => .error (expected_found "colon [type information] " none)
      | tk :: _ => .error (expected_found "opening parenthesis" (some tk.type_))
      | [] => .error (expected_found "opening parenthesis" none)
    | tk :: _ => .error (expected_found "fn keyword" (some tk.type_))
    | [] => .error (expected_found "fn keyword" none)

/-- The parameter loop of `parse_function` (ast.rs:272-291): a `')'` peek
consumes it and stops; a literal peek parses a strict typed literal and then
requires a comma (consumed) or a `')'` peek (left for the next round, which
is how a trailing comma before `')'` is accepted); tokens running out ends
the loop without error, and anything else is a `ParseError`. -/
def parse_function_args : Nat → List Token → Except ParseError (List AST × List Token)
  | 0, _ => .error fuel_err
  | _ + 1, [] => .ok ([], [])
  | _ + 1, ⟨.operator .rparen, _⟩ :: r => .ok ([], r)
  | fuel + 1, ts@(⟨.literal _, _⟩ :: _) =>
    match parse_typed_literal fuel true ts with
    | .error e => .error e
    | .ok (a, r) =>
      match r with
      | ⟨.operator .comma, _⟩ :: r' =>
        match parse_function_args fuel r' with
        | .error e => .error e
        | .ok (as, r'') => .ok (a :: as, r'')
      | ⟨.operator .rparen, _⟩ :: _ =>
        match parse_function_args fuel r with
        | .error e => .error e
        | .ok (as, r'') => .ok (a :: as, r'')
      | tk :: _ => .error (expected_found "comma or closing parenthesis" (some tk.type_))
      | [] => .error (expected_found "comma or closing parenthesis" none)
  | _ + 1, tk :: _ => .error (expected_found "literal or closing parenthesis" (some tk.type_))

end

/-- The top-level `parse` wrapper (ast.rs:57-67): run `parse_module` and wrap
any `ParseError` with the synthetic default `Location` (the source's
`// FIXME: this is a hack`).  The fuel bound grows with the input so that
every actually-terminating Rust run is reproduced. -/
def parse (ts : List Token) : Except LocalizedError AST :=
  match parse_module (8 * ts.length + 8) ts with
  | .ok (a, _) => .ok a
  | .error e => .error ⟨.parse e.message, ⟨0, 0⟩⟩

/-- `compile_lines` (compile.rs): tokenize, parse, and report the
tokenizer's recorded error in preference to the parser's result.  `none`
models a tokenizer panic. -/
def compile_lines (lines : List (List Char)) : Option (Except LocalizedError AST) :=
  match tokenizer_run 0 lines with
  | none => none
  | some (_, some e) => some (.error e)
  | some (toks, none) => some (parse toks)

/-! ## The diagnostic renderer (`errors.rs`) -/

/-- `Display` of the leaf causes (tokenizer.rs:50-54, ast.rs:48-52). -/
def ErrCause.display : ErrCause → String
  | .token m => "TokenizerError: " ++ m
  | .parse m => "ParseError: " ++ m

/-- `impl fmt::Display for LocalizedError` (errors.rs:67-72): the plain,
path-less representation. -/
def display_localized (e : LocalizedError) : String :=
  "Error at [line:" ++ toString e.location.line ++ ",column:"
    ++ toString e.location.column ++ "]:\n" ++ e.cause.display

/-- The successful branch of `Display for LocalizedSourcedError`
(errors.rs:83-123), summarized: the caret-annotated frame built from the
re-read file lines.  No claim depends on this text; it is kept only so that
`display_sourced` has the source's two-branch shape. -/
def render_snippet (e : LocalizedSourcedError) (lines : List String) : String :=
  "Error at [line:" ++ toString e.location.line ++ ",column:"
    ++ toString e.location.column ++ "]:\n"
    ++ "Inside file '" ++ e.source_path ++ "':\n"
    ++ String.intercalate "\n" ((lines.drop (e.location.line - 1)).take 3)

/-- `impl fmt::Display for LocalizedSourcedError` (errors.rs:74-124).
`file` is the re-opened source (`none` = `File::open` failed, with `ioErr`
the I/O error text).  In the failure branch the source runs
`write!(f, "{}", self)` — formatting the *sourced* error itself again —
before appending the "Couldn't show snippet" note; the fuel mirrors the
recursion (Rust's call stack), and the overall result is `none` when no
output is ever completed. -/
def display_sourced (fuel : Nat) (e : LocalizedSourcedError) (ioErr : String) :
    Option (List String) → Option String
  | some lines =>
    match fuel with
    | 0 => none
    | _ + 1 => some (render_snippet e lines)
  | none =>
    match fuel with
    | 0 => none
    | fuel + 1 =>
      match display_sourced fuel e ioErr none with
      | none => none
      | some s => some (s ++ "Couldn't show snippet, error opening file: " ++ ioErr)

/-! ## Proof-side helpers (these state properties *about* the embedding; the
definitions above are the embedding itself) -/

/-- `Except.is_ok`. -/
def except_is_ok {α β : Type} : Except α β → Bool
  | .ok _ => true
  | .error _ => false

/-- `Option.all`: the predicate holds of the wrapped value, vacuously for
`none` (used to state "if there is a first comment marker, then ..."
decidably). -/
def opt_all {α : Type} (p : α → Bool) : Option α → Bool
  | none => true
  | some a => p a

/-- Index of the first occurrence of the two-character comment marker `//`
in a line (the position the claims call "the first comment marker"). -/
def fss : List Char → Option Nat
  | c1 :: c2 :: rest =>
    if c1 = '/' ∧ c2 = '/' then some 0
    else (fss (c2 :: rest)).map (· + 1)
  | _ => none

/-- How many of the remaining characters `slice_into_snippets_aux cat run`
examines (and hence ASCII-asserts) before it stops: every character up to
and including the look-ahead that terminates the first comment group. -/
def checked (cat : Nat) (run : List Char) : List Char → Nat
  | [] => 0
  | c :: rest =>
    1 + (if category c = cat then checked cat (run ++ [c]) rest
         else if is_comment_run cat run then 0
         else checked (category c) [c] rest)

/-- `checked` lifted to `slice_into_snippets`. -/
def checked_top : List Char → Nat
  | [] => 0
  | c :: rest => 1 + checked (category c) [c] rest

/-! # Theorems -/

/-- C1.  When the source file cannot be re-opened, rendering a
`LocalizedSourcedError` does NOT terminate with the plain error plus the
"couldn't show snippet" note: the `Display` implementation re-formats
`self` (the sourced error, whose rendering re-attempts the open) instead of
the path-less inner error, so for every recursion depth no output is ever
produced — the claimed graceful degradation is exactly what the code fails
to do, and the appended note shows it was the intent.  (The claim is
correct about the intended behaviour; the code is the bug.) -/
theorem c1_unopenable_source_rendering_diverges
    (fuel : Nat) (e : LocalizedSourcedError) (ioErr : String) :
    display_sourced fuel e ioErr none = none := by
  induction fuel with
  | zero => rfl
  | succ n ih => simp [display_sourced, ih]

/-- C2.  Whenever the top-level `parse` wrapper fails, the returned
`LocalizedError` carries the synthetic default location `{0, 0}`, no matter
which tokens were being parsed (the wrapper discards the real failing
location — the source's own `FIXME` hack). -/
theorem c2_parse_failure_location_is_default
    (ts : List Token) (e : LocalizedError) (h : parse ts = .error e) :
    e.location = ⟨0, 0⟩ := by
  unfold parse at h
  cases hm : parse_module (8 * ts.length + 8) ts with
  | ok p =>
    obtain ⟨a, r⟩ := p
    rw [hm] at h
    simp at h
  | error pe =>
    rw [hm] at h
    simp only [Except.error.injEq] at h
    rw [← h]

/-- Witness for C2 at a concrete failing input: a lone semicolon makes the
parser fail at line 1, yet the reported location is the default `{0, 0}`. -/
theorem c2_parse_failure_location_witness :
    parse [⟨.operator .semicolon, ⟨1, 0⟩⟩] =
      .error ⟨.parse "Expected literal, unary operator or opening parenthesis, found Operator(Semicolon)",
              ⟨0, 0⟩⟩ ∧
    (⟨.parse "Expected literal, unary operator or opening parenthesis, found Operator(Semicolon)",
      ⟨0, 0⟩⟩ : LocalizedError).location = ⟨0, 0⟩ :=
  ⟨rfl, c2_parse_failure_location_is_default [⟨.operator .semicolon, ⟨1, 0⟩⟩] _ rfl⟩

/-- C3.  Parsing the single line `let x = 1 + 2 * 3;` succeeds and returns
exactly `Module[Expression(Let, Literal "x", Expression(Add, Literal "1",
Expression(Mul, Literal "2", Literal "3")))]` — multiplication binds tighter
than addition and the binding is the synthetic `Expression(Let, ..)` form.
(Locations are the 1-based line / 0-based snippet indices of each
production's first token.) -/
theorem c3_let_precedence_parse :
    compile_lines [("let x = 1 + 2 * 3;".toList)] =
      some (.ok (.module
        [.expression .let_
          (.literal "x" ⟨1, 1⟩)
          (.expression .add
            (.literal "1" ⟨1, 3⟩)
            (.expression .mul (.literal "2" ⟨1, 5⟩) (.literal "3" ⟨1, 7⟩) ⟨1, 5⟩)
            ⟨1, 3⟩)
          ⟨1, 0⟩]
        ⟨1, 0⟩)) := rfl

/-- C4 (counterexample to the claim as stated).  On `fn(): int { 1;` the
parse does fail with a `ParseError` at end of input and never panics — but
the message is `Expected semicolon, found end of input`, which mentions
neither `}` nor a statement start: `parse_block`'s loop accepts end of
input as a block terminator, so the missing `}` surfaces one level up as a
missing statement semicolon. -/
theorem c4_counterexample_message_is_semicolon :
    compile_lines [("fn(): int \x7b 1;".toList)] =
      some (.error ⟨.parse "Expected semicolon, found end of input", ⟨0, 0⟩⟩) ∧
    ("Expected semicolon, found end of input".toList).contains '\x7d' = false :=
  ⟨rfl, by decide⟩

/-- C4 (amended).  Parsing `fn(): int { 1;` (unterminated block) fails with
a `ParseError` reading `Expected semicolon, found end of input` wrapped at
the synthetic default location; no AST is returned and nothing panics (the
result is `some (error ..)`, not `none`). -/
theorem c4_unterminated_block_error :
    compile_lines [("fn(): int \x7b 1;".toList)] =
      some (.error ⟨.parse "Expected semicolon, found end of input", ⟨0, 0⟩⟩) := rfl

/-- C6.  The power operator is parsed left-associatively: for every three
literal atoms `a`, `b`, `c` (at arbitrary locations) the token sequence of
`a ** b ** c` parses to `Expression(Pow, Expression(Pow, a, b), c)` with
nothing left over, and that tree is distinct from the right-associative
reading `Expression(Pow, a, Expression(Pow, b, c))`.  Quantified over the
fuel, so the shape holds at every recursion budget ≥ 6. -/
theorem c6_pow_left_assoc
    (f : Nat) (a b c : String) (l1 l2 l3 l4 l5 : Location) :
    parse_airthmetic_expression (f + 6)
      [⟨.literal a, l1⟩, ⟨.operator .pow, l2⟩, ⟨.literal b, l3⟩,
       ⟨.operator .pow, l4⟩, ⟨.literal c, l5⟩] =
      .ok (.expression .pow
            (.expression .pow (.literal a l1) (.literal b l3) l1)
            (.literal c l5) l1, []) ∧
    (AST.expression .pow
        (.expression .pow (.literal a l1) (.literal b l3) l1)
        (.literal c l5) l1) ≠
      (AST.expression .pow (.literal a l1)
        (.expression .pow (.literal b l3) (.literal c l5) l3) l1) :=
  ⟨rfl, by simp⟩

/-- C7.  Unary minus desugars to subtraction from zero — the tokens of `-5`
parse (as an atom, at every sufficient fuel) to
`Expression(Sub, Literal "0", Literal "5")` — and unary plus is the
identity: `parse_atom` on a leading `+` token at any location returns
exactly `parse_atom` of the remaining tokens (one recursion level down),
for every token sequence, so `+A` always yields the same AST as `A`. -/
theorem c7_unary_desugar
    (f : Nat) (l1 l2 l : Location) (ts : List Token) :
    parse_atom (f + 2) [⟨.operator .sub, l1⟩, ⟨.literal "5", l2⟩] =
      .ok (.expression .sub (.literal "0" l1) (.literal "5" l2) l1, []) ∧
    parse_atom (f + 1) (⟨.operator .add, l⟩ :: ts) = parse_atom f ts :=
  ⟨rfl, rfl⟩

/-- C9 (counterexample to the claim as stated).  The parameter list
`fn(a: int,): int { a; };` with a trailing comma is NOT rejected: the whole
input parses successfully (`parse_function`'s loop leaves a peeked `)`
after the comma for the next round, which consumes it and stops). -/
theorem c9_counterexample_trailing_comma_accepted :
    (compile_lines [("fn(a: int,): int { a; };".toList)]).map
        (fun r => except_is_ok r) = some true := rfl

/-- C9 (amended).  The lambda parameter list accepts an optional trailing
comma — `ParamList := TypedLiteral (',' TypedLiteral)* [',']` — e.g.
`fn(a: int,): int { a; };` parses to
`Module[Lambda("int", [TypedLiteral("a","int")], Block[Literal "a"])]`. -/
theorem c9_trailing_comma_parse :
    compile_lines [("fn(a: int,): int { a; };".toList)] =
      some (.ok (.module
        [.lambda "int" [.typedLiteral "a" "int" ⟨1, 2⟩]
          (.block [.literal "a" ⟨1, 10⟩] ⟨1, 9⟩) ⟨1, 0⟩]
        ⟨1, 0⟩)) := rfl

/-! ### Lemmas about the tokenizer state machine (towards C5) -/

/-- A recorded error makes `Tokenizer::next` yield end-of-sequence with the
whole state — remaining lines, error slot — untouched. -/
theorem tok_next_of_err {st : TokSt} (e : LocalizedError) (h : st.err = some e) :
    tok_next st = some (none, st) := by
  unfold tok_next
  rw [h]

/-- Hence any number of further pulls leaves an errored state unchanged. -/
theorem pulls_of_err {st : TokSt} (e : LocalizedError) (h : st.err = some e) :
    ∀ j, pulls j st = some st := by
  intro j
  induction j with
  | zero => rfl
  | succ n ih =>
    rw [pulls, tok_next_of_err e h]
    simpa using ih

/-- Pull counts compose. -/
theorem pulls_add (a b : Nat) (st : TokSt) :
    pulls (a + b) st = (pulls a st).bind (pulls b) := by
  induction a generalizing st with
  | zero => simp [pulls]
  | succ n ih =>
    have h : n + 1 + b = (n + b) + 1 := by omega
    rw [h, pulls, pulls]
    cases tok_next st with
    | none => rfl
    | some p => simp [ih p.2]

/-- Pulling exactly the buffered tokens empties the buffer, bumping only the
running column. -/
theorem pulls_pop (ts : List Token) (lines : List (List Char)) (n : Nat) :
    ∀ c, pulls ts.length (⟨lines, ts, n, c, none⟩ : TokSt) =
      some (⟨lines, [], n, c + ts.length, none⟩ : TokSt) := by
  induction ts with
  | nil => intro c; rfl
  | cons t ts ih =>
    intro c
    have h2 : pulls (t :: ts).length (⟨lines, t :: ts, n, c, none⟩ : TokSt) =
        pulls ts.length (⟨lines, ts, n, c + 1, none⟩ : TokSt) := rfl
    rw [h2, ih (c + 1)]
    have h3 : c + 1 + ts.length = c + (ts.length + 1) := by omega
    rw [h3, List.length_cons]

/-- If the first bad snippet sits at index `i`, the classification loop
records a `TokenError` at column `start + i` (and line `line`). -/
theorem classify_err_of_find (line : Nat) (snips : List String) :
    ∀ start i, find_bad_idx snips = some i →
    ∃ msg, (classify_snippets line start snips).2 = some ⟨.token msg, ⟨line, start + i⟩⟩ := by
  induction snips with
  | nil => intro start i h; simp [find_bad_idx] at h
  | cons s rest ih =>
    intro start i h
    unfold find_bad_idx at h
    by_cases hb : bad_snippet s
    · rw [if_pos hb] at h
      obtain rfl : (0 : Nat) = i := by simpa using h
      unfold bad_snippet at hb
      cases hfs : TokType.from_str s with
      | ok t => rw [hfs] at hb; simp at hb
      | error err =>
        exact ⟨err.message, by simp [classify_snippets, hfs]⟩
    · rw [if_neg hb] at h
      cases hrest : find_bad_idx rest with
      | none => rw [hrest] at h; simp at h
      | some i' =>
        rw [hrest] at h
        simp only [Option.map_some', Option.some.injEq] at h
        have hok : ∃ t, TokType.from_str s = .ok t := by
          unfold bad_snippet at hb
          cases hfs : TokType.from_str s with
          | ok t => exact ⟨t, rfl⟩
          | error err => rw [hfs] at hb; simp at hb
        obtain ⟨t, hfs⟩ := hok
        obtain ⟨msg, hm⟩ := ih (start + 1) i' hrest
        rcases hr : classify_snippets line (start + 1) rest with ⟨ts1, e1⟩
        rw [hr] at hm
        have he1 : e1 = some ⟨.token msg, ⟨line, start + 1 + i'⟩⟩ := hm
        refine ⟨msg, ?_⟩
        have hred : (classify_snippets line start (s :: rest)).2 = e1 := by
          simp [classify_snippets, hfs, hr]
        rw [hred, he1, ← h]
        have harr : start + 1 + i' = start + (i' + 1) := by omega
        rw [harr]

/-- If no snippet is bad, the classification loop records no error. -/
theorem classify_none_of_find (line : Nat) (snips : List String) :
    ∀ start, find_bad_idx snips = none →
    (classify_snippets line start snips).2 = none := by
  induction snips with
  | nil => intro start _; rfl
  | cons s rest ih =>
    intro start h
    unfold find_bad_idx at h
    by_cases hb : bad_snippet s
    · rw [if_pos hb] at h; simp at h
    · rw [if_neg hb] at h
      simp only [Option.map_eq_none'] at h
      have hok : ∃ t, TokType.from_str s = .ok t := by
        unfold bad_snippet at hb
        cases hfs : TokType.from_str s with
        | ok t => exact ⟨t, rfl⟩
        | error err => rw [hfs] at hb; simp at hb
      obtain ⟨t, hfs⟩ := hok
      have hm := ih (start + 1) h
      rcases hr : classify_snippets line (start + 1) rest with ⟨ts1, e1⟩
      rw [hr] at hm
      have hred : (classify_snippets line start (s :: rest)).2 = e1 := by
        simp [classify_snippets, hfs, hr]
      rw [hred]
      exact hm

/-- From any quiescent ("Ready") state whose remaining input has its first
bad snippet at `loc`, some number of pulls reaches the errored state. -/
theorem tok_machine_reaches_error :
    ∀ (lines : List (List Char)) (n c : Nat) (loc : Location),
    first_bad_loc n lines = some loc →
    ∃ k st, pulls k (⟨lines, [], n, c, none⟩ : TokSt) = some st ∧
      (∃ msg, st.err = some ⟨.token msg, loc⟩) ∧
      tok_next st = some (none, st) ∧
      (∀ j, pulls j st = some st) := by
  intro lines
  induction lines with
  | nil => intro n c loc h; simp [first_bad_loc] at h
  | cons l rest ih =>
    intro n c loc h
    unfold first_bad_loc at h
    cases hseg : slice_into_snippets l with
    | none => rw [hseg] at h; simp at h
    | some snips =>
      rw [hseg] at h
      rcases hcp : classify_snippets (n + 1) 0 snips with ⟨toks0, e0⟩
      cases hbad : find_bad_idx snips with
      | some i =>
        simp only [hbad, Option.some.injEq] at h
        obtain ⟨msg, hcl⟩ := classify_err_of_find (n + 1) snips 0 i hbad
        rw [hcp] at hcl
        have he0 : e0 = some ⟨.token msg, ⟨n + 1, 0 + i⟩⟩ := hcl
        subst he0
        refine ⟨1, ⟨rest, [], n + 1, 0, some ⟨.token msg, ⟨n + 1, 0 + i⟩⟩⟩, ?_,
          ⟨msg, by rw [← h]; simp⟩, tok_next_of_err _ rfl, pulls_of_err _ rfl⟩
        have hstep : tok_next (⟨l :: rest, [], n, c, none⟩ : TokSt) =
            some (none, (⟨rest, [], n + 1, 0, some ⟨.token msg, ⟨n + 1, 0 + i⟩⟩⟩ : TokSt)) := by
          show fetch_from n c (l :: rest) = _
          simp [fetch_from, hseg, hcp]
        rw [pulls, hstep]
        rfl
      | none =>
        simp only [hbad] at h
        have hcl2 := classify_none_of_find (n + 1) snips 0 hbad
        rw [hcp] at hcl2
        have he0 : e0 = none := hcl2
        subst he0
        cases toks0 with
        | nil =>
          obtain ⟨k, st, hp, herr, hstep, hall⟩ := ih (n + 1) 0 loc h
          cases k with
          | zero =>
            exfalso
            simp only [pulls, Option.some.injEq] at hp
            obtain ⟨msg, hmsg⟩ := herr
            rw [← hp] at hmsg
            simp at hmsg
          | succ k' =>
            refine ⟨k' + 1, st, ?_, herr, hstep, hall⟩
            have h1 : tok_next (⟨l :: rest, [], n, c, none⟩ : TokSt) =
                tok_next (⟨rest, [], n + 1, 0, none⟩ : TokSt) := by
              show fetch_from n c (l :: rest) = fetch_from (n + 1) 0 rest
              simp [fetch_from, hseg, hcp]
            rw [pulls, h1, ← pulls]
            exact hp
        | cons t ts' =>
          obtain ⟨k, st, hp, herr, hstep, hall⟩ := ih (n + 1) (1 + ts'.length) loc h
          refine ⟨1 + (ts'.length + k), st, ?_, herr, hstep, hall⟩
          have hfetch : tok_next (⟨l :: rest, [], n, c, none⟩ : TokSt) =
              some (some t, (⟨rest, ts', n + 1, 1, none⟩ : TokSt)) := by
            show fetch_from n c (l :: rest) = _
            simp [fetch_from, hseg, hcp]
          have h2 : pulls (1 + (ts'.length + k)) (⟨l :: rest, [], n, c, none⟩ : TokSt) =
              pulls (ts'.length + k) (⟨rest, ts', n + 1, 1, none⟩ : TokSt) := by
            have h3 : 1 + (ts'.length + k) = (ts'.length + k) + 1 := by omega
            rw [h3, pulls, hfetch]
            rfl
          rw [h2, pulls_add, pulls_pop ts' rest (n + 1) 1]
          simpa using hp

/-- C5.  If the input contains an unclassifiable snippet (one that is
neither a recognized operator/keyword nor all-alphanumeric) — the first one
sitting at 1-based line `loc.line`, 0-based snippet index `loc.column` —
then pulling the freshly initialized `Tokenizer` reaches a state whose
recorded error is a `TokenError` located exactly there, and from that state
every further pull yields end-of-sequence with the state (remaining lines,
recorded error) completely unchanged: no later line is ever scanned and the
recorded error is never replaced. -/
theorem c5_first_lexical_error_halts
    (lines : List (List Char)) (loc : Location)
    (h : first_bad_loc 0 lines = some loc) :
    ∃ k st, pulls k (TokSt.init lines) = some st ∧
      (∃ msg, st.err = some ⟨.token msg, loc⟩) ∧
      tok_next st = some (none, st) ∧
      (∀ j, pulls j st = some st) :=
  tok_machine_reaches_error lines 0 0 loc h

/-! ### Lemmas about the scanned region of the segmenter (towards C8) -/

/-- Only `/` is classified into category 12. -/
theorem category_eq_twelve {x : Char} (h : category x = 12) : x = '/' := by
  unfold category at h
  by_cases h1 : rust_is_whitespace x = true
  · rw [if_pos h1] at h; exact absurd h (by decide)
  rw [if_neg h1] at h
  by_cases h2 : x.isAlphanum = true
  · rw [if_pos h2] at h; exact absurd h (by decide)
  rw [if_neg h2] at h
  by_cases h3 : rust_is_ascii_punct x = true
  case neg => rw [if_neg h3] at h; exact absurd h (by decide)
  rw [if_pos h3] at h
  by_cases h4 : (x == '(') = true
  · rw [if_pos h4] at h; exact absurd h (by decide)
  rw [if_neg h4] at h
  by_cases h5 : (x == ')') = true
  · rw [if_pos h5] at h; exact absurd h (by decide)
  rw [if_neg h5] at h
  by_cases h6 : (x == '\x7b') = true
  · rw [if_pos h6] at h; exact absurd h (by decide)
  rw [if_neg h6] at h
  by_cases h7 : (x == '\x7d') = true
  · rw [if_pos h7] at h; exact absurd h (by decide)
  rw [if_neg h7] at h
  by_cases h8 : (x == ';') = true
  · rw [if_pos h8] at h; exact absurd h (by decide)
  rw [if_neg h8] at h
  by_cases h9 : (x == ':') = true
  · rw [if_pos h9] at h; exact absurd h (by decide)
  rw [if_neg h9] at h
  by_cases h10 : (x == '=') = true
  · rw [if_pos h10] at h; exact absurd h (by decide)
  rw [if_neg h10] at h
  by_cases h11 : (x == '+') = true
  · rw [if_pos h11] at h; exact absurd h (by decide)
  rw [if_neg h11] at h
  by_cases h12 : (x == '-') = true
  · rw [if_pos h12] at h; exact absurd h (by decide)
  rw [if_neg h12] at h
  by_cases h13 : (x == '*') = true
  · rw [if_pos h13] at h; exact absurd h (by decide)
  rw [if_neg h13] at h
  by_cases h14 : (x == '/') = true
  · exact eq_of_beq h14
  rw [if_neg h14] at h
  by_cases h15 : (x == '%') = true
  · rw [if_pos h15] at h; exact absurd h (by decide)
  rw [if_neg h15] at h
  by_cases h16 : (x == ',') = true
  · rw [if_pos h16] at h; exact absurd h (by decide)
  rw [if_neg h16] at h
  exact absurd h (by decide)

/-- The segmenter ASCII-asserts every character inside its `checked` region:
a non-ASCII character there panics the scan. -/
theorem aux_none_of_checked :
    ∀ (rest : List Char) (cat : Nat) (run : List Char) (i : Nat),
    i < checked cat run rest → char_is_ascii (rest.getD i 'a') = false →
    slice_into_snippets_aux cat run rest = none := by
  intro rest
  induction rest with
  | nil => intro cat run i hi _; simp [checked] at hi
  | cons c r ih =>
    intro cat run i hi hna
    by_cases hca : char_is_ascii c
    · cases i with
      | zero => rw [List.getD_cons_zero] at hna; rw [hna] at hca; simp at hca
      | succ j =>
        rw [List.getD_cons_succ] at hna
        unfold checked at hi
        unfold slice_into_snippets_aux
        rw [hca]
        simp only [Bool.not_true, Bool.false_eq_true, if_false]
        by_cases h1 : category c = cat
        · rw [if_pos h1] at hi
          simp only [h1, beq_self_eq_true, if_true]
          exact ih cat (run ++ [c]) j (by omega) hna
        · rw [if_neg h1] at hi
          have hbe : (category c == cat) = false := by simpa using h1
          rw [hbe]
          simp only [Bool.false_eq_true, if_false]
          by_cases h2 : is_comment_run cat run
          · rw [if_pos h2] at hi; omega
          · rw [if_neg h2] at hi
            have hrec := ih (category c) [c] j (by omega) hna
            have hbe2 : is_comment_run cat run = false := by simpa using h2
            rw [hbe2]
            simp only [Bool.false_eq_true, if_false]
            by_cases h3 : cat == 0
            · rw [if_pos h3]; exact hrec
            · rw [if_neg h3, hrec]; rfl
    · unfold slice_into_snippets_aux
      have : char_is_ascii c = false := by simpa using hca
      rw [this]
      rfl

/-- A comment marker anywhere in the suffix is a comment marker in the whole
list: `fss` of an append being `none` passes to the right part. -/
theorem fss_none_suffix : ∀ (xs ys : List Char), fss (xs ++ ys) = none → fss ys = none := by
  intro xs
  induction xs with
  | nil => intro ys h; simpa using h
  | cons x xs ih =>
    intro ys h
    cases hxy : xs ++ ys with
    | nil =>
      have : ys = [] := (List.append_eq_nil.mp hxy).2
      rw [this]; rfl
    | cons y zs =>
      rw [List.cons_append, hxy] at h
      by_cases hslash : x = '/' ∧ y = '/'
      · unfold fss at h
        rw [if_pos hslash] at h
        simp at h
      · unfold fss at h
        rw [if_neg hslash] at h
        simp only [Option.map_eq_none'] at h
        rw [← hxy] at h
        exact ih ys h

/-- `fss cs = some m` pins `/` characters at positions `m` and `m + 1`. -/
theorem fss_spec : ∀ (cs : List Char) (m : Nat), fss cs = some m →
    m + 1 < cs.length ∧ cs.getD m 'a' = '/' ∧ cs.getD (m + 1) 'a' = '/' := by
  intro cs
  induction cs with
  | nil => intro m h; simp [fss] at h
  | cons c1 rest ih =>
    intro m h
    cases rest with
    | nil => simp [fss] at h
    | cons c2 rest' =>
      by_cases hslash : c1 = '/' ∧ c2 = '/'
      · unfold fss at h
        rw [if_pos hslash] at h
        obtain rfl : (0 : Nat) = m := by simpa using h
        simp only [List.length_cons, List.getD_cons_zero, List.getD_cons_succ]
        exact ⟨by omega, hslash.1, hslash.2⟩
      · unfold fss at h
        rw [if_neg hslash] at h
        simp only [Option.map_eq_some'] at h
        obtain ⟨m', hm', rfl⟩ := h
        obtain ⟨hlen, hg1, hg2⟩ := ih m' hm'
        refine ⟨?_, ?_, ?_⟩
        · simp only [List.length_cons] at hlen ⊢; omega
        · rw [List.getD_cons_succ]; exact hg1
        · rw [List.getD_cons_succ]; exact hg2

/-- Locating the first `//` across an append: it lies inside the left part,
straddles the boundary, or is the first `//` of the right part. -/
theorem fss_append_cases : ∀ (xs ys : List Char) (m : Nat), fss (xs ++ ys) = some m →
    m + 2 ≤ xs.length ∨ m + 1 = xs.length ∨
    (xs.length ≤ m ∧ fss ys = some (m - xs.length)) := by
  intro xs
  induction xs with
  | nil => intro ys m h; right; right; simpa using h
  | cons x xs ih =>
    intro ys m h
    cases hxy : xs ++ ys with
    | nil => rw [List.cons_append, hxy] at h; simp [fss] at h
    | cons y zs =>
      rw [List.cons_append, hxy] at h
      by_cases hslash : x = '/' ∧ y = '/'
      · unfold fss at h
        rw [if_pos hslash] at h
        obtain rfl : (0 : Nat) = m := by simpa using h
        cases xs with
        | nil => right; left; rfl
        | cons a b => left; simp only [List.length_cons]; omega
      · unfold fss at h
        rw [if_neg hslash] at h
        simp only [Option.map_eq_some'] at h
        obtain ⟨m', hm', rfl⟩ := h
        rw [← hxy] at hm'
        rcases ih ys m' hm' with h1 | h2 | ⟨h3, h4⟩
        · left; simp only [List.length_cons]; omega
        · right; left; simp only [List.length_cons]; omega
        · right; right
          refine ⟨by simp only [List.length_cons]; omega, ?_⟩
          have heq : m' + 1 - (x :: xs).length = m' - xs.length := by
            simp only [List.length_cons]; omega
          rw [heq]
          exact h4

/-- With no comment marker anywhere (current group included), the segmenter
examines every remaining character. -/
theorem checked_all_of_no_marker :
    ∀ (rest : List Char) (cat : Nat) (run : List Char),
    (∀ x ∈ run, category x = cat) → run ≠ [] →
    fss (run ++ rest) = none → checked cat run rest = rest.length := by
  intro rest
  induction rest with
  | nil => intro cat run _ _ _; rfl
  | cons c r ih =>
    intro cat run hrun hne hfss
    unfold checked
    by_cases h1 : category c = cat
    · rw [if_pos h1]
      have hrun' : ∀ x ∈ run ++ [c], category x = cat := by
        intro x hx
        rcases List.mem_append.mp hx with hx | hx
        · exact hrun x hx
        · simp at hx; rw [hx]; exact h1
      have hfss' : fss ((run ++ [c]) ++ r) = none := by
        have : (run ++ [c]) ++ r = run ++ (c :: r) := by simp
        rw [this]; exact hfss
      rw [ih cat (run ++ [c]) hrun' (by simp) hfss']
      simp only [List.length_cons]
      omega
    · rw [if_neg h1]
      by_cases h2 : is_comment_run cat run
      · exfalso
        unfold is_comment_run at h2
        simp only [Bool.and_eq_true, beq_iff_eq, decide_eq_true_eq] at h2
        obtain ⟨hcat, hlen⟩ := h2
        cases run with
        | nil => simp at hlen
        | cons x1 run1 =>
          cases run1 with
          | nil => simp at hlen
          | cons x2 run2 =>
            have hx1 : x1 = '/' := category_eq_twelve (by rw [← hcat]; exact hrun x1 (by simp))
            have hx2 : x2 = '/' := category_eq_twelve (by rw [← hcat]; exact hrun x2 (by simp))
            rw [List.cons_append, List.cons_append] at hfss
            unfold fss at hfss
            rw [if_pos ⟨hx1, hx2⟩] at hfss
            simp at hfss
      · rw [if_neg h2]
        have hfss' : fss ([c] ++ r) = none := fss_none_suffix run (c :: r) hfss
        rw [ih (category c) [c] (by simp) (by simp) hfss']
        simp only [List.length_cons]
        omega

/-- With a comment marker at `m` (counting from the start of the current
group), the segmenter examines at least up to the marker. -/
theorem checked_reaches_marker :
    ∀ (rest : List Char) (cat : Nat) (run : List Char),
    (∀ x ∈ run, category x = cat) → run ≠ [] →
    ∀ m, fss (run ++ rest) = some m → m + 1 ≤ run.length + checked cat run rest := by
  intro rest
  induction rest with
  | nil =>
    intro cat run _ _ m hfss
    have := (fss_spec run m (by simpa using hfss)).1
    simp only [checked]
    omega
  | cons c r ih =>
    intro cat run hrun hne m hfss
    unfold checked
    by_cases h1 : category c = cat
    · rw [if_pos h1]
      have hrun' : ∀ x ∈ run ++ [c], category x = cat := by
        intro x hx
        rcases List.mem_append.mp hx with hx | hx
        · exact hrun x hx
        · simp at hx; rw [hx]; exact h1
      have hfss' : fss ((run ++ [c]) ++ r) = some m := by
        have : (run ++ [c]) ++ r = run ++ (c :: r) := by simp
        rw [this]; exact hfss
      have := ih cat (run ++ [c]) hrun' (by simp) m hfss'
      simp only [List.length_append, List.length_cons, List.length_nil] at this
      omega
    · rw [if_neg h1]
      by_cases h2 : is_comment_run cat run
      · rw [if_pos h2]
        unfold is_comment_run at h2
        simp only [Bool.and_eq_true, beq_iff_eq, decide_eq_true_eq] at h2
        obtain ⟨hcat, hlen⟩ := h2
        cases run with
        | nil => simp at hlen
        | cons x1 run1 =>
          cases run1 with
          | nil => simp at hlen
          | cons x2 run2 =>
            have hx1 : x1 = '/' := category_eq_twelve (by rw [← hcat]; exact hrun x1 (by simp))
            have hx2 : x2 = '/' := category_eq_twelve (by rw [← hcat]; exact hrun x2 (by simp))
            rw [List.cons_append, List.cons_append] at hfss
            unfold fss at hfss
            rw [if_pos ⟨hx1, hx2⟩] at hfss
            obtain rfl : (0 : Nat) = m := by simpa using hfss
            simp only [List.length_cons]
            omega
      · rw [if_neg h2]
        rcases fss_append_cases run (c :: r) m hfss with hc1 | hc2 | ⟨hc3, hc4⟩
        · omega
        · omega
        · have := ih (category c) [c] (by simp) (by simp) (m - run.length) (by simpa using hc4)
          simp only [List.length_cons, List.length_nil] at this
          omega

/-- C8.  A non-ASCII character at (or before) the first comment marker — if
the line has a comment marker at index `m`, the character's index `i` is at
most `m + 1`; otherwise `i` is anywhere in the line — makes the Lexical
Segmenter fail its ASCII assertion: `slice_into_snippets` panics (`none`)
rather than producing snippets or a recoverable error. -/
theorem c8_non_ascii_panics (cs : List Char) (i : Nat)
    (h1 : i < cs.length)
    (h2 : char_is_ascii (cs.getD i 'a') = false)
    (h3 : opt_all (fun m => decide (i ≤ m + 1)) (fss cs) = true) :
    slice_into_snippets cs = none := by
  cases cs with
  | nil => simp at h1
  | cons c rest =>
    have hred : slice_into_snippets (c :: rest) =
        if (!char_is_ascii c) = true then none
        else slice_into_snippets_aux (category c) [c] rest := rfl
    cases i with
    | zero =>
      rw [List.getD_cons_zero] at h2
      rw [hred, h2]
      rfl
    | succ j =>
      rw [List.getD_cons_succ] at h2
      by_cases hca : char_is_ascii c
      · rw [hred, hca]
        simp only [Bool.not_true, Bool.false_eq_true, if_false]
        refine aux_none_of_checked rest (category c) [c] j ?_ h2
        cases hfss : fss (c :: rest) with
        | none =>
          have := checked_all_of_no_marker rest (category c) [c] (by simp) (by simp)
            (by simpa using hfss)
          rw [this]
          simp only [List.length_cons] at h1
          omega
        | some m =>
          rw [hfss] at h3
          simp only [opt_all, decide_eq_true_eq] at h3
          obtain ⟨hlen, hg1, hg2⟩ := fss_spec (c :: rest) m hfss
          have hne1 : j + 1 ≠ m := by
            intro hEq
            rw [← hEq] at hg1
            rw [List.getD_cons_succ] at hg1
            rw [hg1] at h2
            simp [char_is_ascii] at h2
          have hne2 : j + 1 ≠ m + 1 := by
            intro hEq
            rw [← hEq] at hg2
            rw [List.getD_cons_succ] at hg2
            rw [hg2] at h2
            simp [char_is_ascii] at h2
          have := checked_reaches_marker rest (category c) [c] (by simp) (by simp) m
            (by simpa using hfss)
          simp only [List.length_cons, List.length_nil] at this
          omega
      · have hfc : char_is_ascii c = false := by simpa using hca
        rw [hred, hfc]
        rfl

/-- Witness for C8: `a é` has the non-ASCII `é` at index 2 (no comment
marker), and segmenting the line panics. -/
theorem c8_witness :
    char_is_ascii (("a é".toList).getD 2 'a') = false ∧
    slice_into_snippets ("a é".toList) = none :=
  ⟨by decide, c8_non_ascii_panics ("a é".toList) 2 (by decide) (by decide) (by decide)⟩

/-! ### Lemmas about snippet formation (towards C10) -/

/-- Non-whitespace, non-alphanumeric characters land in the punctuation
categories `2..14` or the catch-all `99`. -/
theorem category_lower_bound {c : Char} (hws : rust_is_whitespace c = false)
    (halnum : c.isAlphanum = false) : 2 ≤ category c := by
  unfold category
  rw [if_neg (by simp [hws]), if_neg (by simp [halnum])]
  by_cases hp : rust_is_ascii_punct c = true
  case neg => rw [if_neg hp]; omega
  rw [if_pos hp]
  by_cases hx1 : (c == '(') = true
  · rw [if_pos hx1]
  rw [if_neg hx1]
  by_cases hx2 : (c == ')') = true
  · rw [if_pos hx2]; omega
  rw [if_neg hx2]
  by_cases hx3 : (c == '\x7b') = true
  · rw [if_pos hx3]; omega
  rw [if_neg hx3]
  by_cases hx4 : (c == '\x7d') = true
  · rw [if_pos hx4]; omega
  rw [if_neg hx4]
  by_cases hx5 : (c == ';') = true
  · rw [if_pos hx5]; omega
  rw [if_neg hx5]
  by_cases hx6 : (c == ':') = true
  · rw [if_pos hx6]; omega
  rw [if_neg hx6]
  by_cases hx7 : (c == '=') = true
  · rw [if_pos hx7]; omega
  rw [if_neg hx7]
  by_cases hx8 : (c == '+') = true
  · rw [if_pos hx8]; omega
  rw [if_neg hx8]
  by_cases hx9 : (c == '-') = true
  · rw [if_pos hx9]; omega
  rw [if_neg hx9]
  by_cases hx10 : (c == '*') = true
  · rw [if_pos hx10]; omega
  rw [if_neg hx10]
  by_cases hx11 : (c == '/') = true
  · rw [if_pos hx11]; omega
  rw [if_neg hx11]
  by_cases hx12 : (c == '%') = true
  · rw [if_pos hx12]; omega
  rw [if_neg hx12]
  by_cases hx13 : (c == ',') = true
  · rw [if_pos hx13]; omega
  rw [if_neg hx13]
  omega

/-- A group of a non-`/` character is never the comment group. -/
theorem not_comment_of_ne_slash {c : Char} (hslash : c ≠ '/') (run : List Char) :
    is_comment_run (category c) run = false := by
  unfold is_comment_run
  have h12 : (category c == 12) = false := by
    simp only [beq_eq_false_iff_ne, ne_eq]
    intro h
    exact hslash (category_eq_twelve h)
  rw [h12]
  rfl

/-- A comment group (an all-`/` group of length ≥ 2) puts the first `//`
marker at its very head. -/
theorem comment_run_fss {cat : Nat} {run : List Char}
    (hrun : ∀ x ∈ run, category x = cat) (h2 : is_comment_run cat run = true)
    (ys : List Char) : fss (run ++ ys) = some 0 := by
  unfold is_comment_run at h2
  simp only [Bool.and_eq_true, beq_iff_eq, decide_eq_true_eq] at h2
  obtain ⟨hcat, hlen⟩ := h2
  cases run with
  | nil => simp at hlen
  | cons x1 run1 =>
    cases run1 with
    | nil => simp at hlen
    | cons x2 run2 =>
      have hx1 : x1 = '/' := category_eq_twelve (by rw [← hcat]; exact hrun x1 (by simp))
      have hx2 : x2 = '/' := category_eq_twelve (by rw [← hcat]; exact hrun x2 (by simp))
      rw [List.cons_append, List.cons_append]
      unfold fss
      rw [if_pos ⟨hx1, hx2⟩]

/-- An all-ASCII remainder never panics the segmenter. -/
theorem aux_some_of_ascii :
    ∀ (rest : List Char) (cat : Nat) (run : List Char),
    rest.all char_is_ascii = true →
    ∃ sn, slice_into_snippets_aux cat run rest = some sn := by
  intro rest
  induction rest with
  | nil =>
    intro cat run _
    unfold slice_into_snippets_aux
    split_ifs <;> exact ⟨_, rfl⟩
  | cons c r ih =>
    intro cat run hall
    rw [List.all_cons, Bool.and_eq_true] at hall
    obtain ⟨hc, hr⟩ := hall
    unfold slice_into_snippets_aux
    rw [hc]
    simp only [Bool.not_true, Bool.false_eq_true, if_false]
    by_cases h1 : (category c == cat) = true
    · rw [if_pos h1]; exact ih cat (run ++ [c]) hr
    rw [if_neg h1]
    by_cases h2 : is_comment_run cat run = true
    · rw [if_pos h2]; exact ⟨[], rfl⟩
    rw [if_neg h2]
    by_cases h3 : (cat == 0) = true
    · rw [if_pos h3]; exact ih (category c) [c] hr
    rw [if_neg h3]
    obtain ⟨sn, hsn⟩ := ih (category c) [c] hr
    rw [hsn]
    exact ⟨_, rfl⟩

/-- `(xs ++ y :: ys).getLast?` only looks at the nonempty right part. -/
theorem getLast_append_cons :
    ∀ (xs : List Char) (y : Char) (ys : List Char),
    (xs ++ y :: ys).getLast? = (y :: ys).getLast? := by
  intro xs
  induction xs with
  | nil => intro y ys; rfl
  | cons x xs ih =>
    intro y ys
    rw [List.cons_append]
    cases hxy : xs ++ y :: ys with
    | nil => simp at hxy
    | cons z zs =>
      rw [List.getLast?_cons_cons, ← hxy]
      exact ih y ys

/-- Scanning a maximal run of `n` copies of a (non-`/`, non-whitespace,
non-alphanumeric, ASCII) character `c` emits the whole run as one snippet:
the run accumulated so far (`k` copies) plus the `j` copies still ahead end
up as the snippet `c^(k+j)` in the output. -/
theorem aux_run_mem (c : Char) (hca : char_is_ascii c = true)
    (hws : rust_is_whitespace c = false) (halnum : c.isAlphanum = false)
    (hslash : c ≠ '/') :
    ∀ (j k : Nat) (s : List Char), 1 ≤ k →
    s.all char_is_ascii = true →
    (∀ x, s.head? = some x → category x ≠ category c) →
    ∃ sn, slice_into_snippets_aux (category c) (List.replicate k c)
            (List.replicate j c ++ s) = some sn ∧
      String.mk (List.replicate (k + j) c) ∈ sn := by
  intro j
  induction j with
  | zero =>
    intro k s hk hs hhead
    simp only [List.replicate, List.nil_append]
    cases s with
    | nil =>
      unfold slice_into_snippets_aux
      rw [if_neg (by rw [not_comment_of_ne_slash hslash]; simp)]
      have hcat2 := category_lower_bound hws halnum
      rw [if_neg (by simp; omega)]
      exact ⟨_, rfl, by simp⟩
    | cons d s' =>
      have hd : category d ≠ category c := hhead d rfl
      rw [List.all_cons, Bool.and_eq_true] at hs
      obtain ⟨hda, hs'⟩ := hs
      unfold slice_into_snippets_aux
      rw [hda]
      simp only [Bool.not_true, Bool.false_eq_true, if_false]
      rw [if_neg (by simpa using hd)]
      rw [if_neg (by rw [not_comment_of_ne_slash hslash]; simp)]
      have hcat2 := category_lower_bound hws halnum
      rw [if_neg (by simp; omega)]
      obtain ⟨sn, hsn⟩ := aux_some_of_ascii s' (category d) [d] hs'
      rw [hsn]
      exact ⟨_, rfl, by simp⟩
  | succ j ih =>
    intro k s hk hs hhead
    have hrep : List.replicate (j + 1) c ++ s = c :: (List.replicate j c ++ s) := by
      rw [List.replicate_succ, List.cons_append]
    rw [hrep]
    unfold slice_into_snippets_aux
    rw [hca]
    simp only [Bool.not_true, Bool.false_eq_true, if_false]
    rw [if_pos (by simp)]
    have hrun : List.replicate k c ++ [c] = List.replicate (k + 1) c :=
      (List.replicate_succ' k c).symm
    rw [hrun]
    obtain ⟨sn, hsn, hmem⟩ := ih (k + 1) s (by omega) hs hhead
    refine ⟨sn, hsn, ?_⟩
    have harr : k + (j + 1) = k + 1 + j := by omega
    rw [harr]
    exact hmem

/-- Processing an arbitrary prefix `p` (no comment marker, category break
before the run) and then a maximal run of `n` copies of `c` leaves the run's
snippet in the segmenter's output. -/
theorem aux_prefix_mem (c : Char) (hca : char_is_ascii c = true)
    (hws : rust_is_whitespace c = false) (halnum : c.isAlphanum = false)
    (hslash : c ≠ '/') (n : Nat) (hn : 1 ≤ n) (s : List Char)
    (hs_ascii : s.all char_is_ascii = true)
    (hs_head : ∀ x, s.head? = some x → category x ≠ category c) :
    ∀ (p : List Char) (cat : Nat) (run : List Char),
    (∀ x ∈ run, category x = cat) → run ≠ [] →
    p.all char_is_ascii = true →
    fss (run ++ p) = none →
    (∀ x, (run ++ p).getLast? = some x → category x ≠ category c) →
    ∃ sn, slice_into_snippets_aux cat run (p ++ (List.replicate n c ++ s)) = some sn ∧
      String.mk (List.replicate n c) ∈ sn := by
  intro p
  induction p with
  | nil =>
    intro cat run hrun hne _ hfss hlast
    have hlast' : ∀ x, run.getLast? = some x → category x ≠ category c := by
      intro x hx
      exact hlast x (by rw [List.append_nil]; exact hx)
    have hcatne : cat ≠ category c := by
      cases hr : run.getLast? with
      | none => exact absurd (List.getLast?_eq_none_iff.mp hr) hne
      | some x =>
        have hxmem : x ∈ run := by
          obtain ⟨hne', hx⟩ := List.mem_getLast?_eq_getLast (l := run) (x := x)
            (by rw [Option.mem_def]; exact hr)
          rw [hx]
          exact List.getLast_mem hne'
        rw [← hrun x hxmem]
        exact hlast' x hr
    obtain ⟨m, rfl⟩ : ∃ m, n = m + 1 := ⟨n - 1, by omega⟩
    have hrep : List.replicate (m + 1) c ++ s = c :: (List.replicate m c ++ s) := by
      rw [List.replicate_succ, List.cons_append]
    rw [List.nil_append, hrep]
    unfold slice_into_snippets_aux
    rw [hca]
    simp only [Bool.not_true, Bool.false_eq_true, if_false]
    rw [if_neg (by simpa using fun h => hcatne h.symm)]
    by_cases hcm : is_comment_run cat run = true
    · exfalso
      have hc0 := comment_run_fss hrun hcm []
      have hfss2 : fss run = none := by simpa using hfss
      rw [List.append_nil, hfss2] at hc0
      exact Option.noConfusion hc0
    rw [if_neg hcm]
    have hS2 := aux_run_mem c hca hws halnum hslash m 1 s (by omega) hs_ascii hs_head
    simp only [List.replicate_one] at hS2
    by_cases h0 : (cat == 0) = true
    · rw [if_pos h0]
      obtain ⟨sn, hsn, hmem⟩ := hS2
      exact ⟨sn, hsn, by simpa [Nat.add_comm] using hmem⟩
    · rw [if_neg h0]
      obtain ⟨sn, hsn, hmem⟩ := hS2
      refine ⟨String.mk run :: sn, ?_, ?_⟩
      · rw [hsn]
        rfl
      · exact List.mem_cons_of_mem _ (by simpa [Nat.add_comm] using hmem)
  | cons a p' ih =>
    intro cat run hrun hne hpascii hfss hlast
    rw [List.all_cons, Bool.and_eq_true] at hpascii
    obtain ⟨haa, hp'a⟩ := hpascii
    rw [List.cons_append]
    unfold slice_into_snippets_aux
    rw [haa]
    simp only [Bool.not_true, Bool.false_eq_true, if_false]
    by_cases h1 : (category a == cat) = true
    · rw [if_pos h1]
      have h1' : category a = cat := by simpa using h1
      refine ih cat (run ++ [a]) ?_ (by simp) hp'a ?_ ?_
      · intro x hx
        rcases List.mem_append.mp hx with hx | hx
        · exact hrun x hx
        · simp at hx; rw [hx]; exact h1'
      · have : (run ++ [a]) ++ p' = run ++ (a :: p') := by simp
        rw [this]; exact hfss
      · intro x hx
        have : (run ++ [a]) ++ p' = run ++ (a :: p') := by simp
        rw [this] at hx
        exact hlast x hx
    · rw [if_neg h1]
      by_cases hcm : is_comment_run cat run = true
      · exact absurd (comment_run_fss hrun hcm (a :: p')) (by rw [hfss]; simp)
      rw [if_neg hcm]
      have hstep := ih (category a) [a] (by simp) (by simp) hp'a
        (by simpa using fss_none_suffix run (a :: p') hfss)
        (by
          intro x hx
          apply hlast x
          rw [show run ++ a :: p' = run ++ (a :: p') from rfl]
          rw [show ([a] ++ p' : List Char) = a :: p' from rfl] at hx
          rw [getLast_append_cons run a p']
          exact hx)
      by_cases h0 : (cat == 0) = true
      · rw [if_pos h0]
        obtain ⟨sn, hsn, hmem⟩ := hstep
        exact ⟨sn, hsn, hmem⟩
      · rw [if_neg h0]
        obtain ⟨sn, hsn, hmem⟩ := hstep
        refine ⟨String.mk run :: sn, ?_, List.mem_cons_of_mem _ hmem⟩
        rw [hsn]
        rfl

/-- A run of `n ≥ 2` copies of one non-alphanumeric character is not a
recognized operator (the only multi-character ones are `**`, `let`, `fn`)
and not all-alphanumeric, so `Type::from_str` rejects it. -/
theorem run_from_str_error (c : Char) (n : Nat)
    (hn : 2 ≤ n) (halnum : c.isAlphanum = false)
    (hstar : ¬(c = '*' ∧ n = 2)) :
    TokType.from_str (String.mk (List.replicate n c)) =
      .error ⟨"Invalid token: " ++ String.mk (List.replicate n c)⟩ := by
  obtain ⟨m, rfl⟩ : ∃ m, n = m + 2 := ⟨n - 2, by omega⟩
  have hdata : (String.mk (List.replicate (m + 2) c)).data = c :: c :: List.replicate m c := by
    show List.replicate (m + 2) c = c :: c :: List.replicate m c
    rw [List.replicate_succ, List.replicate_succ]
  have hlen : (String.mk (List.replicate (m + 2) c)).data.length = m + 2 := by
    rw [hdata]
    simp
  have hne_single : ∀ (L : String), L.data.length = 1 →
      ¬ String.mk (List.replicate (m + 2) c) = L := by
    intro L hL hEq
    rw [hEq, hL] at hlen
    omega
  have hne_diff : ∀ (L : String) (a b : Char) (rest : List Char),
      L.data = a :: b :: rest → a ≠ b →
      ¬ String.mk (List.replicate (m + 2) c) = L := by
    intro L a b rest hL hab hEq
    have hd := congrArg String.data hEq
    rw [hdata, hL] at hd
    injection hd with h1 h2
    injection h2 with h2 h3
    exact hab (by rw [← h1, ← h2])
  have hne_star : ¬ String.mk (List.replicate (m + 2) c) = "**" := by
    intro hEq
    have hd := congrArg String.data hEq
    rw [hdata] at hd
    rw [show ("**" : String).data = ['*', '*'] from by decide] at hd
    injection hd with h1 h2
    injection h2 with h2 h3
    have hm0 : m = 0 := by
      have := congrArg List.length h3
      simpa using this
    exact hstar ⟨h1, by omega⟩
  have hall : ((String.mk (List.replicate (m + 2) c)).data.all Char.isAlphanum) = false := by
    rw [hdata]
    simp [halnum]
  unfold TokType.from_str
  rw [if_neg (hne_single "+" (by decide)), if_neg (hne_single "-" (by decide)),
    if_neg (hne_single "*" (by decide)), if_neg (hne_single "/" (by decide)),
    if_neg (hne_single "%" (by decide)), if_neg hne_star,
    if_neg (hne_single "," (by decide)), if_neg (hne_single ":" (by decide)),
    if_neg (hne_single ";" (by decide)), if_neg (hne_single "=" (by decide)),
    if_neg (hne_single "(" (by decide)), if_neg (hne_single ")" (by decide)),
    if_neg (hne_single "\x7b" (by decide)), if_neg (hne_single "\x7d" (by decide)),
    if_neg (hne_diff "let" 'l' 'e' ['t'] (by decide) (by decide)),
    if_neg (hne_diff "fn" 'f' 'n' [] (by decide) (by decide)),
    if_neg (by rw [hall]; simp)]

/-- A bad snippet in the list makes `find_bad_idx` find one. -/
theorem find_bad_of_mem : ∀ (snips : List String) (s : String),
    s ∈ snips → bad_snippet s = true → ∃ j, find_bad_idx snips = some j := by
  intro snips
  induction snips with
  | nil => intro s hs _; simp at hs
  | cons t rest ih =>
    intro s hs hbad
    unfold find_bad_idx
    by_cases hbt : bad_snippet t = true
    · rw [if_pos hbt]; exact ⟨0, rfl⟩
    · rw [if_neg hbt]
      rcases List.mem_cons.mp hs with rfl | hs'
      · exact absurd hbad hbt
      · obtain ⟨j, hj⟩ := ih s hs' hbad
        exact ⟨j + 1, by rw [hj]; rfl⟩

/-- C10 (counterexample to the claim as stated).  The line `// ((` contains
the adjacent identical punctuation run `((` (not `**`, not a `/`-run), yet
tokenization succeeds with no error and no tokens: the run sits behind the
comment marker and is never scanned. -/
theorem c10_counterexample_commented_run :
    tokenizer_run 0 [("// ((".toList)] = some ([], none) ∧
    ("// ((".toList).drop 3 = List.replicate 2 '(' :=
  ⟨rfl, by decide⟩

/-- C10 (amended).  On an all-ASCII line of the form `p ++ c^n ++ s` where
`c` is a punctuation-class character (ASCII, not alphanumeric, not
whitespace), `c ≠ '/'`, the run is maximal (`p` does not end and `s` does
not begin with a same-category character), has length `n ≥ 2`, is not
exactly `**`, and sits before any comment marker (`p` contains no `//`),
tokenizing that line fails with a lexical `TokenError`: the run forms one
snippet, which `Type::from_str` rejects. -/
theorem c10_identical_punct_run_fails
    (p s : List Char) (c : Char) (n : Nat)
    (hca : char_is_ascii c = true)
    (hws : rust_is_whitespace c = false)
    (halnum : c.isAlphanum = false)
    (hslash : c ≠ '/')
    (hn : 2 ≤ n)
    (hstar : ¬(c = '*' ∧ n = 2))
    (hpa : p.all char_is_ascii = true)
    (hsa : s.all char_is_ascii = true)
    (hpc : fss p = none)
    (hpl : opt_all (fun x => !(category x == category c)) p.getLast? = true)
    (hsh : opt_all (fun x => !(category x == category c)) s.head? = true) :
    ∃ toks e, tokenizer_run 0 [p ++ (List.replicate n c ++ s)] = some (toks, some e) ∧
      ∃ msg loc, e = ⟨.token msg, loc⟩ := by
  have hsh' : ∀ x, s.head? = some x → category x ≠ category c := by
    intro x hx
    rw [hx] at hsh
    simpa [opt_all] using hsh
  have hseg : ∃ sn, slice_into_snippets (p ++ (List.replicate n c ++ s)) = some sn ∧
      String.mk (List.replicate n c) ∈ sn := by
    cases p with
    | nil =>
      obtain ⟨m, rfl⟩ : ∃ m, n = m + 1 := ⟨n - 1, by omega⟩
      have hrep : (([] : List Char) ++ (List.replicate (m + 1) c ++ s)) =
          c :: (List.replicate m c ++ s) := by
        rw [List.nil_append, List.replicate_succ, List.cons_append]
      rw [hrep]
      have hred : slice_into_snippets (c :: (List.replicate m c ++ s)) =
          if (!char_is_ascii c) = true then none
          else slice_into_snippets_aux (category c) [c] (List.replicate m c ++ s) := rfl
      rw [hred, hca]
      simp only [Bool.not_true, Bool.false_eq_true, if_false]
      have hS2 := aux_run_mem c hca hws halnum hslash m 1 s (by omega) hsa hsh'
      simp only [List.replicate_one] at hS2
      obtain ⟨sn, hsn, hmem⟩ := hS2
      exact ⟨sn, hsn, by simpa [Nat.add_comm] using hmem⟩
    | cons a p' =>
      have hpa' := hpa
      rw [List.all_cons, Bool.and_eq_true] at hpa'
      obtain ⟨haa, hp'a⟩ := hpa'
      rw [List.cons_append]
      have hred : slice_into_snippets (a :: (p' ++ (List.replicate n c ++ s))) =
          if (!char_is_ascii a) = true then none
          else slice_into_snippets_aux (category a) [a] (p' ++ (List.replicate n c ++ s)) := rfl
      rw [hred, haa]
      simp only [Bool.not_true, Bool.false_eq_true, if_false]
      refine aux_prefix_mem c hca hws halnum hslash n (by omega) s hsa hsh' p' (category a) [a]
        (by simp) (by simp) hp'a ?_ ?_
      · simpa using hpc
      · intro x hx
        rw [show ([a] ++ p' : List Char) = a :: p' from rfl] at hx
        rw [hx] at hpl
        simpa [opt_all] using hpl
  obtain ⟨sn, hsn, hmem⟩ := hseg
  have hbad : bad_snippet (String.mk (List.replicate n c)) = true := by
    unfold bad_snippet
    rw [run_from_str_error c n hn halnum hstar]
  obtain ⟨j, hj⟩ := find_bad_of_mem sn _ hmem hbad
  obtain ⟨msg, hcl⟩ := classify_err_of_find 1 sn 0 j hj
  rw [Nat.zero_add] at hcl
  rcases hcp : classify_snippets 1 0 sn with ⟨toks0, e0⟩
  rw [hcp] at hcl
  have he0 : e0 = some ⟨.token msg, ⟨1, j⟩⟩ := hcl
  subst he0
  refine ⟨[], ⟨.token msg, ⟨1, j⟩⟩, ?_, msg, ⟨1, j⟩, rfl⟩
  have hrun : tokenizer_run 0 [p ++ (List.replicate n c ++ s)] =
      some ([], some ⟨.token msg, ⟨1, j⟩⟩) := by
    simp only [tokenizer_run, hsn, Nat.zero_add, hcp]
  exact hrun

/-- Witness for C10 (amended): the line `((1+2))` (here `p = []`,
`c = '('`, `n = 2`, `s = "1+2))"`) fails tokenization with a lexical
error — the claim's own example input. -/
theorem c10_witness :
    (2 ≤ 2 ∧ ('(' : Char) ≠ '/' ∧ fss ([] : List Char) = none) ∧
    (∃ toks e, tokenizer_run 0 [(([] : List Char) ++ (List.replicate 2 '(' ++ "1+2))".toList))] =
        some (toks, some e) ∧
      ∃ msg loc, e = ⟨.token msg, loc⟩) :=
  ⟨⟨by omega, by decide, rfl⟩,
   c10_identical_punct_run_fails [] ("1+2))".toList) '(' 2 (by decide) (by decide) (by decide)
     (by decide) (by omega) (by decide) (by decide) (by decide) rfl (by decide) (by decide)⟩

/-- Witness for C5: in `["1 + @", "2"]` the snippet `@` (line 1, snippet
index 2) is invalid, and the machine halts there. -/
theorem c5_witness :
    first_bad_loc 0 ["1 + @".toList, "2".toList] = some ⟨1, 2⟩ ∧
    (∃ k st, pulls k (TokSt.init ["1 + @".toList, "2".toList]) = some st ∧
      (∃ msg, st.err = some ⟨.token msg, ⟨1, 2⟩⟩) ∧
      tok_next st = some (none, st) ∧
      (∀ j, pulls j st = some st)) :=
  ⟨rfl, c5_first_lexical_error_halts ["1 + @".toList, "2".toList] ⟨1, 2⟩ rfl⟩

end Moolang
